import Mathlib

/-!
Verification of the NeuraDeSci blockchain core
(src/rust-components/src/blockchain.rs).

The development shallowly embeds the Rust data model and operations:

* Machine integers (u64, u8) are embedded as Nat: none of the verified
  properties depend on wrap-around, and the mining loop is modelled with
  explicit fuel, so nonce overflow is unreachable in any statement below.
* The SHA-256 primitive lives in the external sha2 crate (wrapped by
  crypto::hash_sha256); the spec treats it as an opaque CryptoProvider
  (digest: deterministic, pure, collision-resistant).  Every definition is
  therefore parametrised by an arbitrary digest function
  String to String; theorems that need collision-freeness state it as an
  explicit hypothesis on the concrete inputs involved.
* Rust methods that mutate self are embedded as state-passing functions
  returning the new state; fallible methods return an Except paired with
  the post-state, and the unbounded mining loop returns Option (none is
  non-termination within the given fuel).
* Rust u64 Display formatting (decimal) is embedded by natRepr below,
  with a proven evaluation inverse showing it is exactly the base-10
  rendering.
-/

/-- Decimal digit list of a Nat, most significant first, with structural
fuel (any fuel above the value itself is enough, and the wrapper below
always supplies that much). -/
def natReprCore : Nat → Nat → List Char
  | 0, _ => []
  | fuel + 1, n =>
    if n < 10 then [Nat.digitChar n]
    else natReprCore fuel (n / 10) ++ [Nat.digitChar (n % 10)]

/-- Decimal digit list of a Nat, most significant first.  Embeds the decimal
rendering used by Rust Display formatting of unsigned integers. -/
def natReprAux (n : Nat) : List Char :=
  natReprCore (n + 1) n

/-- Decimal rendering of a Nat as a string; the embedding of the Display
formatting applied to a u64 value in the Rust source. -/
def natRepr (n : Nat) : String :=
  String.mk (natReprAux n)

/-- Numeric value of a decimal digit character. -/
def charVal (c : Char) : Nat := c.toNat - 48

/-- Evaluate a digit list back to the Nat it renders. -/
def digitsVal (l : List Char) : Nat :=
  l.foldl (fun a c => 10 * a + charVal c) 0

/-- The four distinct error strings returned by the Rust blockchain module,
under the names the spec gives them (section 7 of the spec). -/
inductive BlockchainError where
  | InvalidTransaction
  | EmptyPool
  | ChainEmpty
  | InvalidBlock
deriving DecidableEq, Repr

/-- Embeds enum TransactionType (blockchain.rs). -/
inductive TransactionType where
  | DataSubmission
  | DataAccess
  | CredentialVerification
  | TokenTransfer
  | SmartContractInteraction
  | Custom (s : String)
deriving DecidableEq, Repr

/-- Embeds enum TransactionStatus (blockchain.rs). -/
inductive TransactionStatus where
  | Pending
  | Confirmed
  | Failed
  | Rejected
deriving DecidableEq, Repr

/-- Embeds struct Transaction (blockchain.rs). -/
structure Transaction where
  id : String
  transaction_type : TransactionType
  sender : String
  recipient : Option String
  timestamp : Nat
  data : String
  signature : Option String
  gas_fee : Option Nat
  status : TransactionStatus
deriving DecidableEq, Repr

/-- Embeds struct Block (blockchain.rs). -/
structure Block where
  index : Nat
  timestamp : Nat
  transactions : List Transaction
  previous_hash : String
  hash : String
  nonce : Nat
  difficulty : Nat
deriving DecidableEq, Repr

/-- Embeds struct Blockchain (blockchain.rs). -/
structure Blockchain where
  chain : List Block
  pending_transactions : List Transaction
  difficulty : Nat
  mining_reward : Nat
deriving DecidableEq, Repr

/-- Embeds Transaction::new.  SystemTime::now is embedded by the explicit
argument now; the id is digest(sender concatenated with the decimal
timestamp and the data), exactly the format string in the source. -/
def Transaction.new (digest : String → String) (transaction_type : TransactionType)
    (sender data : String) (now : Nat) : Transaction :=
  { id := digest (sender ++ natRepr now ++ data)
    transaction_type := transaction_type
    sender := sender
    recipient := none
    timestamp := now
    data := data
    signature := none
    gas_fee := none
    status := TransactionStatus.Pending }

/-- Embeds Transaction::with_recipient. -/
def Transaction.with_recipient (tx : Transaction) (recipient : String) : Transaction :=
  { tx with recipient := some recipient }

/-- Embeds Transaction::with_gas_fee. -/
def Transaction.with_gas_fee (tx : Transaction) (gas_fee : Nat) : Transaction :=
  { tx with gas_fee := some gas_fee }

/-- The tx_data accumulator of Block::calculate_hash: the concatenation of
the ids of the contained transactions, in order. -/
def txData (txs : List Transaction) : String :=
  txs.foldl (fun acc tx => acc ++ tx.id) ""

/-- The format string passed to the digest in Block::calculate_hash:
index, previous_hash, timestamp, tx_data, nonce, all concatenated. -/
def hashInput (b : Block) : String :=
  natRepr b.index ++ b.previous_hash ++ natRepr b.timestamp ++ txData b.transactions
    ++ natRepr b.nonce

/-- Embeds Block::calculate_hash. -/
def Block.calculate_hash (digest : String → String) (b : Block) : String :=
  digest (hashInput b)

/-- Embeds Block::new: nonce starts at 0 and the hash field is filled in
from calculate_hash of the freshly built block. -/
def Block.new (digest : String → String) (index : Nat) (previous_hash : String)
    (transactions : List Transaction) (difficulty : Nat) (now : Nat) : Block :=
  let b : Block :=
    { index := index
      timestamp := now
      transactions := transactions
      previous_hash := previous_hash
      hash := ""
      nonce := 0
      difficulty := difficulty }
  { b with hash := Block.calculate_hash digest b }

/-- The target of "0".repeat(difficulty) in Block::mine and Block::is_valid. -/
def difficultyTarget (d : Nat) : String :=
  String.mk (List.replicate d '0')

/-- Embeds str::starts_with on strings: character-list prefix test. -/
def strStartsWith (s pre : String) : Bool :=
  pre.data.isPrefixOf s.data

/-- Embeds Block::mine.  The Rust loop has no bound, so it is embedded with
explicit fuel: some b means the loop exited with final state b, none means
it did not exit within fuel iterations.  Each iteration increments the
nonce and recomputes the hash, exactly as in the source. -/
def Block.mine (digest : String → String) : Nat → Block → Option Block
  | fuel, b =>
    if strStartsWith b.hash (difficultyTarget b.difficulty) then some b
    else
      match fuel with
      | 0 => none
      | fuel + 1 =>
        let b1 : Block := { b with nonce := b.nonce + 1 }
        Block.mine digest fuel { b1 with hash := Block.calculate_hash digest b1 }

/-- Embeds Block::is_valid: the recomputed hash must equal the stored hash
and the stored hash must start with the difficulty target. -/
def Block.is_valid (digest : String → String) (b : Block) : Bool :=
  Block.calculate_hash digest b == b.hash
    && strStartsWith b.hash (difficultyTarget b.difficulty)

/-- Embeds Blockchain::create_genesis_block: pushes Block::new(0, "0", [],
difficulty) onto the chain. -/
def Blockchain.create_genesis_block (digest : String → String) (now : Nat)
    (bc : Blockchain) : Blockchain :=
  { bc with chain := bc.chain ++ [Block.new digest 0 "0" [] bc.difficulty now] }

/-- Embeds Blockchain::new: empty chain and pool, then the genesis block is
created. -/
def Blockchain.new (digest : String → String) (difficulty mining_reward now : Nat) :
    Blockchain :=
  Blockchain.create_genesis_block digest now
    { chain := []
      pending_transactions := []
      difficulty := difficulty
      mining_reward := mining_reward }

/-- Embeds Blockchain::get_latest_block (chain.last()). -/
def Blockchain.get_latest_block (bc : Blockchain) : Option Block :=
  bc.chain.getLast?

/-- Embeds Blockchain::add_transaction: reject a transaction with no
signature, otherwise push it onto the pending pool.  The Rust method
mutates self and returns Result of unit; here the post-state is returned
alongside. -/
def Blockchain.add_transaction (bc : Blockchain) (tx : Transaction) :
    Except BlockchainError Unit × Blockchain :=
  if tx.signature.isNone then (Except.error BlockchainError.InvalidTransaction, bc)
  else (Except.ok (), { bc with pending_transactions := bc.pending_transactions ++ [tx] })

/-- Embeds Blockchain::is_valid_new_block: index continuity, hash linkage,
then Block::is_valid, tested in the order of the source. -/
def Blockchain.is_valid_new_block (digest : String → String)
    (new_block previous_block : Block) : Bool :=
  if new_block.index != previous_block.index + 1 then false
  else if new_block.previous_hash != previous_block.hash then false
  else if !(Block.is_valid digest new_block) then false
  else true

/-- Embeds Blockchain::mine_pending_transactions.  The outer Option is the
fuel bound on the inner mining loop (none: mining did not finish); the
Except and the post-state follow the source: EmptyPool on an empty pool,
ChainEmpty when chain.last() is none, InvalidBlock when the mined candidate
fails is_valid_new_block, and on success the candidate is appended and the
pool cleared. -/
def Blockchain.mine_pending_transactions (digest : String → String) (fuel now : Nat)
    (bc : Blockchain) (miner_address : String) :
    Option (Except BlockchainError Block × Blockchain) :=
  if bc.pending_transactions.isEmpty then
    some (Except.error BlockchainError.EmptyPool, bc)
  else
    let reward_tx :=
      (Transaction.new digest TransactionType.TokenTransfer "System"
        ("Reward: " ++ natRepr bc.mining_reward) now).with_recipient miner_address
    let transactions_to_mine := bc.pending_transactions ++ [reward_tx]
    match bc.get_latest_block with
    | none => some (Except.error BlockchainError.ChainEmpty, bc)
    | some latest_block =>
      let new_index := latest_block.index + 1
      let previous_hash := latest_block.hash
      match Block.mine digest fuel
          (Block.new digest new_index previous_hash transactions_to_mine bc.difficulty now) with
      | none => none
      | some new_block =>
        if Blockchain.is_valid_new_block digest new_block latest_block then
          some (Except.ok new_block,
            { bc with
                chain := bc.chain ++ [new_block]
                pending_transactions := [] })
        else some (Except.error BlockchainError.InvalidBlock, bc)

/-- Embeds Blockchain::is_chain_valid: false on an empty chain, otherwise
every adjacent pair (chain[i-1], chain[i]) for i in 1..len must pass
is_valid_new_block.  The loop index i of the source is i+1 here, with i
ranging over 0..len-1. -/
def Blockchain.is_chain_valid (digest : String → String) (bc : Blockchain) : Bool :=
  if bc.chain.isEmpty then false
  else
    (List.range (bc.chain.length - 1)).all fun i =>
      match bc.chain[i + 1]?, bc.chain[i]? with
      | some current_block, some previous_block =>
        Blockchain.is_valid_new_block digest current_block previous_block
      | _, _ => true

/-!
JSON interchange model for C8.  serde_json is embedded at the level of the
JSON document tree (objects keep field order, as serde emits them); the
to_json encoders follow the derived Serialize implementations field by
field (externally tagged enums: a unit variant is its name as a string, the
Custom variant is a one-field object; Option fields serialize to null when
absent), and the from_json decoders look fields up by name as the derived
Deserialize implementations do.
-/

/-- JSON document tree (the fragment serde_json uses for these types). -/
inductive Json where
  | null
  | jstr (s : String)
  | jnum (n : Nat)
  | jarr (xs : List Json)
  | jobj (fields : List (String × Json))
deriving Repr

/-- Field lookup in a JSON object, first match by name. -/
def findField (k : String) : List (String × Json) → Option Json
  | [] => none
  | (k', v) :: rest => if k' = k then some v else findField k rest

/-- Fetch a named field of a JSON object. -/
def Json.getField (j : Json) (k : String) : Option Json :=
  match j with
  | .jobj fs => findField k fs
  | _ => none

/-- Decode a JSON string. -/
def Json.asStr : Json → Option String
  | .jstr s => some s
  | _ => none

/-- Decode a JSON number as a u64 value. -/
def Json.asNum : Json → Option Nat
  | .jnum n => some n
  | _ => none

/-- Encode an optional string: null when absent, as serde does. -/
def optStrToJson : Option String → Json
  | none => Json.null
  | some s => Json.jstr s

/-- Decode an optional string field. -/
def optStrFromJson : Json → Option (Option String)
  | .null => some none
  | .jstr s => some (some s)
  | _ => none

/-- Encode an optional u64: null when absent. -/
def optNatToJson : Option Nat → Json
  | none => Json.null
  | some n => Json.jnum n

/-- Decode an optional u64 field. -/
def optNatFromJson : Json → Option (Option Nat)
  | .null => some none
  | .jnum n => some (some n)
  | _ => none

/-- Serialize TransactionType (externally tagged, as serde derives). -/
def TransactionType.toJson : TransactionType → Json
  | .DataSubmission => .jstr "DataSubmission"
  | .DataAccess => .jstr "DataAccess"
  | .CredentialVerification => .jstr "CredentialVerification"
  | .TokenTransfer => .jstr "TokenTransfer"
  | .SmartContractInteraction => .jstr "SmartContractInteraction"
  | .Custom s => .jobj [("Custom", .jstr s)]

/-- Deserialize TransactionType. -/
def TransactionType.fromJson : Json → Option TransactionType
  | .jstr "DataSubmission" => some .DataSubmission
  | .jstr "DataAccess" => some .DataAccess
  | .jstr "CredentialVerification" => some .CredentialVerification
  | .jstr "TokenTransfer" => some .TokenTransfer
  | .jstr "SmartContractInteraction" => some .SmartContractInteraction
  | .jobj [("Custom", .jstr s)] => some (.Custom s)
  | _ => none

/-- Serialize TransactionStatus. -/
def TransactionStatus.toJson : TransactionStatus → Json
  | .Pending => .jstr "Pending"
  | .Confirmed => .jstr "Confirmed"
  | .Failed => .jstr "Failed"
  | .Rejected => .jstr "Rejected"

/-- Deserialize TransactionStatus. -/
def TransactionStatus.fromJson : Json → Option TransactionStatus
  | .jstr "Pending" => some .Pending
  | .jstr "Confirmed" => some .Confirmed
  | .jstr "Failed" => some .Failed
  | .jstr "Rejected" => some .Rejected
  | _ => none

/-- Embeds Transaction::to_json (derived Serialize, declaration order). -/
def Transaction.to_json (tx : Transaction) : Json :=
  .jobj
    [ ("id", .jstr tx.id)
    , ("transaction_type", tx.transaction_type.toJson)
    , ("sender", .jstr tx.sender)
    , ("recipient", optStrToJson tx.recipient)
    , ("timestamp", .jnum tx.timestamp)
    , ("data", .jstr tx.data)
    , ("signature", optStrToJson tx.signature)
    , ("gas_fee", optNatToJson tx.gas_fee)
    , ("status", tx.status.toJson) ]

/-- Embeds Transaction::from_json (derived Deserialize, field lookup by
name). -/
def Transaction.from_json (j : Json) : Option Transaction := do
  let id ← (j.getField "id").bind Json.asStr
  let transaction_type ← (j.getField "transaction_type").bind TransactionType.fromJson
  let sender ← (j.getField "sender").bind Json.asStr
  let recipient ← (j.getField "recipient").bind optStrFromJson
  let timestamp ← (j.getField "timestamp").bind Json.asNum
  let data ← (j.getField "data").bind Json.asStr
  let signature ← (j.getField "signature").bind optStrFromJson
  let gas_fee ← (j.getField "gas_fee").bind optNatFromJson
  let status ← (j.getField "status").bind TransactionStatus.fromJson
  pure
    { id := id, transaction_type := transaction_type, sender := sender
      recipient := recipient, timestamp := timestamp, data := data
      signature := signature, gas_fee := gas_fee, status := status }

/-- Embeds Block::to_json. -/
def Block.to_json (b : Block) : Json :=
  .jobj
    [ ("index", .jnum b.index)
    , ("timestamp", .jnum b.timestamp)
    , ("transactions", .jarr (b.transactions.map Transaction.to_json))
    , ("previous_hash", .jstr b.previous_hash)
    , ("hash", .jstr b.hash)
    , ("nonce", .jnum b.nonce)
    , ("difficulty", .jnum b.difficulty) ]

/-- Decode a list of JSON values elementwise, failing if any element fails. -/
def decodeListAux (dec : Json → Option α) : List Json → Option (List α)
  | [] => some []
  | x :: xs => do
    let a ← dec x
    let rest ← decodeListAux dec xs
    pure (a :: rest)

/-- Decode a JSON array elementwise. -/
def decodeList (dec : Json → Option α) : Json → Option (List α)
  | .jarr xs => decodeListAux dec xs
  | _ => none

/-- Embeds Block::from_json. -/
def Block.from_json (j : Json) : Option Block := do
  let index ← (j.getField "index").bind Json.asNum
  let timestamp ← (j.getField "timestamp").bind Json.asNum
  let transactions ← (j.getField "transactions").bind (decodeList Transaction.from_json)
  let previous_hash ← (j.getField "previous_hash").bind Json.asStr
  let hash ← (j.getField "hash").bind Json.asStr
  let nonce ← (j.getField "nonce").bind Json.asNum
  let difficulty ← (j.getField "difficulty").bind Json.asNum
  pure
    { index := index, timestamp := timestamp, transactions := transactions
      previous_hash := previous_hash, hash := hash, nonce := nonce
      difficulty := difficulty }

/-- Embeds Blockchain::to_json. -/
def Blockchain.to_json (bc : Blockchain) : Json :=
  .jobj
    [ ("chain", .jarr (bc.chain.map Block.to_json))
    , ("pending_transactions", .jarr (bc.pending_transactions.map Transaction.to_json))
    , ("difficulty", .jnum bc.difficulty)
    , ("mining_reward", .jnum bc.mining_reward) ]

/-- Embeds Blockchain::from_json. -/
def Blockchain.from_json (j : Json) : Option Blockchain := do
  let chain ← (j.getField "chain").bind (decodeList Block.from_json)
  let pending_transactions ←
    (j.getField "pending_transactions").bind (decodeList Transaction.from_json)
  let difficulty ← (j.getField "difficulty").bind Json.asNum
  let mining_reward ← (j.getField "mining_reward").bind Json.asNum
  pure
    { chain := chain, pending_transactions := pending_transactions
      difficulty := difficulty, mining_reward := mining_reward }

/-!
Helper lemmas.  First: natRepr is genuinely the base-10 rendering, shown by
an evaluation inverse, which also gives injectivity.
-/

theorem charVal_digitChar {n : Nat} (h : n < 10) : charVal (Nat.digitChar n) = n := by
  interval_cases n <;> decide

theorem digitsVal_append (l : List Char) (c : Char) :
    digitsVal (l ++ [c]) = 10 * digitsVal l + charVal c := by
  simp [digitsVal, List.foldl_append]

theorem digitsVal_natReprCore (fuel n : Nat) (h : n < fuel) :
    digitsVal (natReprCore fuel n) = n := by
  induction fuel generalizing n with
  | zero => omega
  | succ fuel ih =>
    rw [natReprCore]
    by_cases h10 : n < 10
    · simp only [h10, if_true]
      simp [digitsVal, charVal_digitChar h10]
    · simp only [h10, if_false]
      rw [digitsVal_append, ih (n / 10) (by omega),
        charVal_digitChar (Nat.mod_lt n (by omega))]
      omega

theorem digitsVal_natReprAux (n : Nat) : digitsVal (natReprAux n) = n :=
  digitsVal_natReprCore (n + 1) n (Nat.lt_succ_self n)

theorem natReprAux_inj {m n : Nat} (h : natReprAux m = natReprAux n) : m = n := by
  have := congrArg digitsVal h
  rwa [digitsVal_natReprAux, digitsVal_natReprAux] at this

theorem natRepr_inj {m n : Nat} (h : natRepr m = natRepr n) : m = n :=
  natReprAux_inj (congrArg String.data h)

/-!
String-level decomposition of hashInput, and the fact that changing exactly
one hashed component (with the others fixed) changes the digest input.
-/

theorem hashInput_data (b : Block) :
    (hashInput b).data =
      natReprAux b.index ++ (b.previous_hash.data ++ (natReprAux b.timestamp ++
        ((txData b.transactions).data ++ natReprAux b.nonce))) := by
  simp [hashInput, natRepr, String.data_append, List.append_assoc]

theorem hashInput_set_index_ne (b : Block) (j : Nat) (hj : j ≠ b.index) :
    hashInput { b with index := j } ≠ hashInput b := by
  intro h
  have hd := congrArg String.data h
  rw [hashInput_data, hashInput_data] at hd
  exact hj (natReprAux_inj (List.append_cancel_right hd))

theorem hashInput_set_previous_hash_ne (b : Block) (p : String)
    (hp : p ≠ b.previous_hash) : hashInput { b with previous_hash := p } ≠ hashInput b := by
  intro h
  have hd := congrArg String.data h
  rw [hashInput_data, hashInput_data] at hd
  have h2 := List.append_cancel_left hd
  have h3 := List.append_cancel_right h2
  exact hp (by apply String.ext; exact h3)

theorem hashInput_set_timestamp_ne (b : Block) (t : Nat) (ht : t ≠ b.timestamp) :
    hashInput { b with timestamp := t } ≠ hashInput b := by
  intro h
  have hd := congrArg String.data h
  rw [hashInput_data, hashInput_data] at hd
  have h2 := List.append_cancel_left (List.append_cancel_left hd)
  exact ht (natReprAux_inj (List.append_cancel_right h2))

theorem hashInput_set_transactions_ne (b : Block) (ts : List Transaction)
    (hts : txData ts ≠ txData b.transactions) :
    hashInput { b with transactions := ts } ≠ hashInput b := by
  intro h
  have hd := congrArg String.data h
  rw [hashInput_data, hashInput_data] at hd
  have h2 := List.append_cancel_left (List.append_cancel_left (List.append_cancel_left hd))
  have h3 := List.append_cancel_right h2
  exact hts (by apply String.ext; exact h3)

theorem hashInput_set_nonce_ne (b : Block) (m : Nat) (hm : m ≠ b.nonce) :
    hashInput { b with nonce := m } ≠ hashInput b := by
  intro h
  have hd := congrArg String.data h
  rw [hashInput_data, hashInput_data] at hd
  have h2 :=
    List.append_cancel_left (List.append_cancel_left (List.append_cancel_left
      (List.append_cancel_left hd)))
  exact hm (natReprAux_inj h2)

/-!
Basic facts about the difficulty target, the prefix test, calculate_hash
and Block.new.
-/

theorem strStartsWith_iff (s pre : String) :
    strStartsWith s pre = true ↔ pre.data <+: s.data := by
  simp [strStartsWith, List.isPrefixOf_iff_prefix]

/-- The leading-zero condition: a hash passing the target test has at least
d leading zero characters. -/
theorem leading_zeros_of_strStartsWith {s : String} {d : Nat}
    (h : strStartsWith s (difficultyTarget d) = true) :
    List.replicate d '0' <+: s.data := by
  rw [strStartsWith_iff] at h
  exact h

theorem calculate_hash_set_hash (digest : String → String) (b : Block) (x : String) :
    Block.calculate_hash digest { b with hash := x } = Block.calculate_hash digest b := rfl

@[simp] theorem Block.new_index (digest : String → String) (i : Nat) (p : String)
    (t : List Transaction) (d n : Nat) : (Block.new digest i p t d n).index = i := rfl

@[simp] theorem Block.new_timestamp (digest : String → String) (i : Nat) (p : String)
    (t : List Transaction) (d n : Nat) : (Block.new digest i p t d n).timestamp = n := rfl

@[simp] theorem Block.new_transactions (digest : String → String) (i : Nat) (p : String)
    (t : List Transaction) (d n : Nat) : (Block.new digest i p t d n).transactions = t := rfl

@[simp] theorem Block.new_previous_hash (digest : String → String) (i : Nat) (p : String)
    (t : List Transaction) (d n : Nat) : (Block.new digest i p t d n).previous_hash = p := rfl

@[simp] theorem Block.new_nonce (digest : String → String) (i : Nat) (p : String)
    (t : List Transaction) (d n : Nat) : (Block.new digest i p t d n).nonce = 0 := rfl

@[simp] theorem Block.new_difficulty (digest : String → String) (i : Nat) (p : String)
    (t : List Transaction) (d n : Nat) : (Block.new digest i p t d n).difficulty = d := rfl

theorem Block.new_hash_eq (digest : String → String) (i : Nat) (p : String)
    (t : List Transaction) (d n : Nat) :
    (Block.new digest i p t d n).hash = Block.calculate_hash digest (Block.new digest i p t d n) :=
  rfl

/-!
Lemmas about the mining loop.
-/

/-- On exit, the loop guard is satisfied: the final hash starts with the
difficulty target. -/
theorem mine_exit_guard (digest : String → String) (fuel : Nat) (b b' : Block)
    (h : Block.mine digest fuel b = some b') :
    strStartsWith b'.hash (difficultyTarget b'.difficulty) = true := by
  induction fuel generalizing b with
  | zero =>
    rw [Block.mine] at h
    by_cases hg : strStartsWith b.hash (difficultyTarget b.difficulty) = true
    · simp only [hg, if_true, Option.some.injEq] at h
      exact h ▸ hg
    · simp only [Bool.not_eq_true] at hg
      simp [hg] at h
  | succ fuel ih =>
    rw [Block.mine] at h
    by_cases hg : strStartsWith b.hash (difficultyTarget b.difficulty) = true
    · simp only [hg, if_true, Option.some.injEq] at h
      exact h ▸ hg
    · simp only [Bool.not_eq_true] at hg
      simp only [hg, Bool.false_eq_true, if_false] at h
      exact ih _ h

/-- The mining loop only touches the nonce and hash fields, and the nonce
never decreases. -/
theorem mine_frame (digest : String → String) (fuel : Nat) (b b' : Block)
    (h : Block.mine digest fuel b = some b') :
    b'.index = b.index ∧ b'.timestamp = b.timestamp ∧
      b'.transactions = b.transactions ∧ b'.previous_hash = b.previous_hash ∧
      b'.difficulty = b.difficulty ∧ b.nonce ≤ b'.nonce := by
  induction fuel generalizing b with
  | zero =>
    rw [Block.mine] at h
    by_cases hg : strStartsWith b.hash (difficultyTarget b.difficulty) = true
    · simp only [hg, if_true, Option.some.injEq] at h
      subst h
      exact ⟨rfl, rfl, rfl, rfl, rfl, Nat.le_refl _⟩
    · simp only [Bool.not_eq_true] at hg
      simp [hg] at h
  | succ fuel ih =>
    rw [Block.mine] at h
    by_cases hg : strStartsWith b.hash (difficultyTarget b.difficulty) = true
    · simp only [hg, if_true, Option.some.injEq] at h
      subst h
      exact ⟨rfl, rfl, rfl, rfl, rfl, Nat.le_refl _⟩
    · simp only [Bool.not_eq_true] at hg
      simp only [hg, Bool.false_eq_true, if_false] at h
      obtain ⟨h1, h2, h3, h4, h5, h6⟩ := ih _ h
      exact ⟨h1, h2, h3, h4, h5, by simp at h6; omega⟩

/-- The stored-hash/calculated-hash invariant is preserved by the mining
loop: if the hash field is up to date on entry it is up to date on exit. -/
theorem mine_hash_inv (digest : String → String) (fuel : Nat) (b b' : Block)
    (hpre : b.hash = Block.calculate_hash digest b)
    (h : Block.mine digest fuel b = some b') :
    b'.hash = Block.calculate_hash digest b' := by
  induction fuel generalizing b with
  | zero =>
    rw [Block.mine] at h
    by_cases hg : strStartsWith b.hash (difficultyTarget b.difficulty) = true
    · simp only [hg, if_true, Option.some.injEq] at h
      exact h ▸ hpre
    · simp only [Bool.not_eq_true] at hg
      simp [hg] at h
  | succ fuel ih =>
    rw [Block.mine] at h
    by_cases hg : strStartsWith b.hash (difficultyTarget b.difficulty) = true
    · simp only [hg, if_true, Option.some.injEq] at h
      exact h ▸ hpre
    · simp only [Bool.not_eq_true] at hg
      simp only [hg, Bool.false_eq_true, if_false] at h
      exact ih _ (calculate_hash_set_hash digest _ _).symm h

/-!
Characterizations of the validity checks.
-/

theorem is_valid_iff (digest : String → String) (b : Block) :
    Block.is_valid digest b = true ↔
      Block.calculate_hash digest b = b.hash ∧
        strStartsWith b.hash (difficultyTarget b.difficulty) = true := by
  simp [Block.is_valid]

theorem is_valid_new_block_iff (digest : String → String) (nb pb : Block) :
    Blockchain.is_valid_new_block digest nb pb = true ↔
      nb.index = pb.index + 1 ∧ nb.previous_hash = pb.hash ∧
        Block.is_valid digest nb = true := by
  unfold Blockchain.is_valid_new_block
  by_cases h1 : nb.index = pb.index + 1
  · by_cases h2 : nb.previous_hash = pb.hash
    · by_cases h3 : Block.is_valid digest nb = true
      · simp [h1, h2, h3]
      · simp [h1, h2, h3]
    · simp [h1, h2]
  · simp [h1]

/-!
Shape lemmas for mine_pending_transactions.
-/

/-- Any terminating run of mine_pending_transactions either leaves the state
unchanged (the error paths) or appends one candidate block that passed
is_valid_new_block against the previous tip and clears the pool. -/
theorem mine_pending_state_cases (digest : String → String) (fuel now : Nat)
    (bc : Blockchain) (miner : String) (res : Except BlockchainError Block)
    (bc' : Blockchain)
    (h : Blockchain.mine_pending_transactions digest fuel now bc miner = some (res, bc')) :
    bc' = bc ∨
      ∃ nb latest, bc.get_latest_block = some latest ∧
        Blockchain.is_valid_new_block digest nb latest = true ∧
        res = Except.ok nb ∧
        bc' = { bc with chain := bc.chain ++ [nb], pending_transactions := [] } := by
  simp only [Blockchain.mine_pending_transactions] at h
  split at h
  · exact Or.inl (by injection h with h1; exact (Prod.mk.injEq _ _ _ _ ▸ h1).2.symm ▸ rfl)
  · split at h
    · exact Or.inl (by injection h with h1; exact (Prod.mk.injEq _ _ _ _ ▸ h1).2.symm ▸ rfl)
    · rename_i latest hlat
      split at h
      · exact absurd h (by simp)
      · rename_i nb hm
        split at h
        · rename_i hvalid
          injection h with h1
          obtain ⟨hres, hst⟩ := Prod.mk.injEq _ _ _ _ ▸ h1
          exact Or.inr ⟨nb, latest, hlat, hvalid, hres.symm, hst.symm⟩
        · exact Or.inl (by injection h with h1; exact (Prod.mk.injEq _ _ _ _ ▸ h1).2.symm ▸ rfl)

/-!
The chain invariant of the spec (section 3), and reachability by the public
mutating operations.
-/

/-- Chain invariant: the chain starts with the genesis block (index 0,
previous_hash "0"), and every later block continues the index sequence,
links to its predecessor by hash, and is self-consistent. -/
def chainInvariant (digest : String → String) (bc : Blockchain) : Prop :=
  (∃ g rest, bc.chain = g :: rest ∧ g.index = 0 ∧ g.previous_hash = "0") ∧
    ∀ i cur prev, bc.chain[i + 1]? = some cur → bc.chain[i]? = some prev →
      cur.index = prev.index + 1 ∧ cur.previous_hash = prev.hash ∧
        Block.is_valid digest cur = true

/-- States reachable from Blockchain::new by any sequence of
add_transaction and mine_pending_transactions calls (each call with its own
observed clock value, fuel and arguments). -/
inductive Reachable (digest : String → String) : Blockchain → Prop where
  | new (difficulty mining_reward now : Nat) :
      Reachable digest (Blockchain.new digest difficulty mining_reward now)
  | add_transaction {bc : Blockchain} (tx : Transaction) :
      Reachable digest bc → Reachable digest (Blockchain.add_transaction bc tx).2
  | mine_pending_transactions {bc : Blockchain} (fuel now : Nat) (miner : String)
      {res : Except BlockchainError Block} {bc' : Blockchain} :
      Reachable digest bc →
      Blockchain.mine_pending_transactions digest fuel now bc miner = some (res, bc') →
      Reachable digest bc'

theorem chainInvariant_new (digest : String → String) (d r now : Nat) :
    chainInvariant digest (Blockchain.new digest d r now) := by
  constructor
  · exact ⟨Block.new digest 0 "0" [] d now, [], rfl, rfl, rfl⟩
  · intro i cur prev hcur _
    have : i + 1 < 1 := (List.getElem?_eq_some.mp hcur).1
    omega

theorem add_transaction_chain (bc : Blockchain) (tx : Transaction) :
    (Blockchain.add_transaction bc tx).2.chain = bc.chain := by
  unfold Blockchain.add_transaction
  split <;> rfl

theorem chainInvariant_of_chain_eq (digest : String → String) {bc bc' : Blockchain}
    (hc : bc'.chain = bc.chain) (h : chainInvariant digest bc) :
    chainInvariant digest bc' := by
  unfold chainInvariant at h ⊢
  rw [hc]
  exact h

theorem chainInvariant_append (digest : String → String) (bc : Blockchain)
    (nb latest : Block) (hlat : bc.get_latest_block = some latest)
    (hval : Blockchain.is_valid_new_block digest nb latest = true)
    (h : chainInvariant digest bc) :
    chainInvariant digest
      { bc with chain := bc.chain ++ [nb], pending_transactions := [] } := by
  obtain ⟨⟨g, rest, hchain, hg0, hgp⟩, hpairs⟩ := h
  obtain ⟨hidx, hprev, hvb⟩ := (is_valid_new_block_iff digest nb latest).mp hval
  constructor
  · exact ⟨g, rest ++ [nb], by simp [hchain], hg0, hgp⟩
  · intro i cur prev hcur hprev'
    simp only at hcur hprev'
    have hlen : i + 1 < bc.chain.length + 1 := by
      have := (List.getElem?_eq_some.mp hcur).1
      simpa using this
    by_cases hin : i + 1 < bc.chain.length
    · rw [List.getElem?_append_left hin] at hcur
      rw [List.getElem?_append_left (by omega)] at hprev'
      exact hpairs i cur prev hcur hprev'
    · have hieq : i + 1 = bc.chain.length := by omega
      have hcur' : cur = nb := by
        rw [List.getElem?_append_right (by omega : bc.chain.length ≤ i + 1)] at hcur
        rw [hieq, Nat.sub_self] at hcur
        simp at hcur
        exact hcur.symm
      have hprev'' : prev = latest := by
        have hlast : bc.chain.getLast? = some latest := hlat
        rw [List.getLast?_eq_getElem?] at hlast
        rw [List.getElem?_append_left (by omega : i < bc.chain.length)] at hprev'
        have : i = bc.chain.length - 1 := by omega
        rw [this] at hprev'
        rw [hlast] at hprev'
        exact (Option.some.injEq _ _ ▸ hprev').symm
      subst hcur' hprev''
      exact ⟨hidx, hprev, hvb⟩

theorem chainInvariant_reachable (digest : String → String) (bc : Blockchain)
    (h : Reachable digest bc) : chainInvariant digest bc := by
  induction h with
  | new d r now => exact chainInvariant_new digest d r now
  | add_transaction tx _ ih =>
    exact chainInvariant_of_chain_eq digest (add_transaction_chain _ tx) ih
  | mine_pending_transactions fuel now miner _ hstep ih =>
    rcases mine_pending_state_cases digest fuel now _ miner _ _ hstep with
      heq | ⟨nb, latest, hlat, hval, _, heq⟩
    · exact heq ▸ ih
    · exact heq ▸ chainInvariant_append digest _ nb latest hlat hval ih

/-- Exact description of the success path of mine_pending_transactions. -/
theorem mine_pending_ok (digest : String → String) (fuel now : Nat) (bc : Blockchain)
    (miner : String) (blk : Block) (bc' : Blockchain)
    (h : Blockchain.mine_pending_transactions digest fuel now bc miner =
      some (Except.ok blk, bc')) :
    bc.pending_transactions ≠ [] ∧
    ∃ latest, bc.get_latest_block = some latest ∧
      Block.mine digest fuel
        (Block.new digest (latest.index + 1) latest.hash
          (bc.pending_transactions ++
            [(Transaction.new digest TransactionType.TokenTransfer "System"
                ("Reward: " ++ natRepr bc.mining_reward) now).with_recipient miner])
          bc.difficulty now) = some blk ∧
      Blockchain.is_valid_new_block digest blk latest = true ∧
      bc' = { bc with chain := bc.chain ++ [blk], pending_transactions := [] } := by
  simp only [Blockchain.mine_pending_transactions] at h
  split at h
  · simp at h
  · rename_i hpool
    have hpool' : bc.pending_transactions ≠ [] := by
      simpa [List.isEmpty_iff] using hpool
    refine ⟨hpool', ?_⟩
    split at h
    · simp at h
    · rename_i latest hlat
      split at h
      · simp at h
      · rename_i nb hm
        split at h
        · rename_i hvalid
          injection h with h1
          obtain ⟨hres, hst⟩ := Prod.mk.injEq _ _ _ _ ▸ h1
          have hnb : nb = blk := by
            injection hres
          subst hnb
          exact ⟨latest, hlat, hm, hvalid, hst.symm⟩
        · simp at h

/-- mine_pending_transactions on an empty pool: the EmptyPool error, state
returned unchanged. -/
theorem mine_pending_empty_pool (digest : String → String) (fuel now : Nat)
    (bc : Blockchain) (miner : String) (h : bc.pending_transactions = []) :
    Blockchain.mine_pending_transactions digest fuel now bc miner =
      some (Except.error BlockchainError.EmptyPool, bc) := by
  simp [Blockchain.mine_pending_transactions, h]

/-- With a nonempty chain, no terminating run can produce ChainEmpty. -/
theorem mine_pending_no_chain_empty (digest : String → String) (fuel now : Nat)
    (bc : Blockchain) (miner : String) (res : Except BlockchainError Block)
    (bc' : Blockchain) (hne : bc.chain ≠ [])
    (h : Blockchain.mine_pending_transactions digest fuel now bc miner = some (res, bc')) :
    res ≠ Except.error BlockchainError.ChainEmpty := by
  simp only [Blockchain.mine_pending_transactions] at h
  split at h
  · injection h with h1
    obtain ⟨hres, _⟩ := Prod.mk.injEq _ _ _ _ ▸ h1
    rw [← hres]
    intro hcontr
    injection hcontr with h2
    exact absurd h2 (by decide)
  · split at h
    · rename_i hlat
      have : bc.chain.getLast? = none := hlat
      rw [List.getLast?_eq_none_iff] at this
      exact absurd this hne
    · split at h
      · simp at h
      · split at h
        · injection h with h1
          obtain ⟨hres, _⟩ := Prod.mk.injEq _ _ _ _ ▸ h1
          rw [← hres]
          intro hcontr
          injection hcontr
        · injection h with h1
          obtain ⟨hres, _⟩ := Prod.mk.injEq _ _ _ _ ▸ h1
          rw [← hres]
          intro hcontr
          injection hcontr with h2
          exact absurd h2 (by decide)

/-- With an (artificially) empty chain and a nonempty pool, the ChainEmpty
branch is the explicit result: a named error value, not a panic. -/
theorem mine_pending_chain_empty (digest : String → String) (fuel now : Nat)
    (bc : Blockchain) (miner : String) (hc : bc.chain = [])
    (hp : bc.pending_transactions ≠ []) :
    Blockchain.mine_pending_transactions digest fuel now bc miner =
      some (Except.error BlockchainError.ChainEmpty, bc) := by
  have hpool : bc.pending_transactions.isEmpty = false := by
    simp [List.isEmpty_iff, hp]
  have hlat : bc.get_latest_block = none := by
    simp [Blockchain.get_latest_block, hc]
  simp [Blockchain.mine_pending_transactions, hpool, hlat]

/-!
Round-trip lemmas for the JSON interchange model.
-/

theorem transactionType_roundtrip (t : TransactionType) :
    TransactionType.fromJson (TransactionType.toJson t) = some t := by
  cases t <;> rfl

theorem transactionStatus_roundtrip (s : TransactionStatus) :
    TransactionStatus.fromJson (TransactionStatus.toJson s) = some s := by
  cases s <;> rfl

theorem optStr_roundtrip (o : Option String) : optStrFromJson (optStrToJson o) = some o := by
  cases o <;> rfl

theorem optNat_roundtrip (o : Option Nat) : optNatFromJson (optNatToJson o) = some o := by
  cases o <;> rfl

theorem transaction_roundtrip (tx : Transaction) :
    Transaction.from_json (Transaction.to_json tx) = some tx := by
  obtain ⟨i, t, s, r, ts, d, sg, gf, st⟩ := tx
  cases t <;> cases st <;> cases r <;> cases sg <;> cases gf <;> rfl

theorem txList_roundtrip (l : List Transaction) :
    decodeListAux Transaction.from_json (l.map Transaction.to_json) = some l := by
  induction l with
  | nil => rfl
  | cons x xs ih => simp [decodeListAux, transaction_roundtrip x, ih]

theorem block_roundtrip (b : Block) :
    Block.from_json (Block.to_json b) = some b := by
  obtain ⟨i, ts, txs, p, h, n, d⟩ := b
  simp [Block.from_json, Block.to_json, Json.getField, findField, decodeList,
    Json.asNum, Json.asStr, txList_roundtrip]

theorem blockList_roundtrip (l : List Block) :
    decodeListAux Block.from_json (l.map Block.to_json) = some l := by
  induction l with
  | nil => rfl
  | cons x xs ih => simp [decodeListAux, block_roundtrip x, ih]

theorem blockchain_roundtrip (bc : Blockchain) :
    Blockchain.from_json (Blockchain.to_json bc) = some bc := by
  obtain ⟨c, p, d, r⟩ := bc
  simp [Blockchain.from_json, Blockchain.to_json, Json.getField, findField, decodeList,
    Json.asNum, txList_roundtrip, blockList_roundtrip]

/-!
Concrete digest functions used to instantiate witnesses and
counterexamples.
-/

/-- Identity digest, used to instantiate witnesses. -/
def idDigest : String → String := fun s => s

/-- Digest prefixing a nonzero character: no calculated hash ever starts
with a zero. -/
def hDigest : String → String := fun s => "h" ++ s

/-- Digest prefixing a zero character: every calculated hash meets
difficulty 1, so mining terminates immediately. -/
def zeroDigest : String → String := fun s => "0" ++ s


/-!
Claim C1.
-/

/-- A block whose stored hash field was set by hand to a string that
already satisfies the difficulty target but is not the calculated hash of
its fields (all Block fields are public in the source, so such a value is
constructible). -/
def presetHashBlock : Block :=
  { index := 0, timestamp := 0, transactions := [], previous_hash := ""
    hash := "0", nonce := 0, difficulty := 1 }

/-- Claim C1 counterexample: on presetHashBlock, mine() terminates at once
(the while guard is already satisfied), yet afterwards the stored hash
differs from calculate_hash of the current fields and is_valid is false;
so the claim fails as stated for arbitrary blocks. -/
theorem mine_postcondition_cex :
    Block.mine hDigest 0 presetHashBlock = some presetHashBlock ∧
      Block.calculate_hash hDigest presetHashBlock ≠ presetHashBlock.hash ∧
      Block.is_valid hDigest presetHashBlock = false := by
  refine ⟨rfl, by decide, by decide⟩

/-- Claim C1 (amended): for a block whose stored hash equals
calculate_hash of its fields before the call — which holds for every block
built by Block::new, in particular every block the Blockchain ever mines —
if mine() terminates then afterwards the hash has at least difficulty many
leading zero characters, the stored hash equals calculate_hash of the
current fields, and is_valid returns true.  (The precondition is forced by
the counterexample: a hand-patched stored hash that already meets the
target makes mine() return with is_valid false.) -/
theorem mine_postcondition (digest : String → String) (fuel : Nat) (b b' : Block)
    (hpre : b.hash = Block.calculate_hash digest b)
    (h : Block.mine digest fuel b = some b') :
    List.replicate b.difficulty '0' <+: b'.hash.data ∧
      b'.hash = Block.calculate_hash digest b' ∧
      Block.is_valid digest b' = true := by
  have hframe := mine_frame digest fuel b b' h
  have hguard := mine_exit_guard digest fuel b b' h
  have hhash := mine_hash_inv digest fuel b b' hpre h
  refine ⟨?_, hhash, ?_⟩
  · have hzeros := leading_zeros_of_strStartsWith hguard
    rw [hframe.2.2.2.2.1] at hzeros
    simpa [difficultyTarget] using hzeros
  · rw [is_valid_iff]
    exact ⟨hhash.symm, hguard⟩

/-- Witness for C1 at a concrete input: difficulty 1 under zeroDigest,
where the freshly built block satisfies the precondition and mining
terminates with fuel 0. -/
theorem mine_postcondition_witness :
    List.replicate (Block.new zeroDigest 1 "p" [] 1 0).difficulty '0' <+:
        (Block.new zeroDigest 1 "p" [] 1 0).hash.data ∧
      (Block.new zeroDigest 1 "p" [] 1 0).hash =
        Block.calculate_hash zeroDigest (Block.new zeroDigest 1 "p" [] 1 0) ∧
      Block.is_valid zeroDigest (Block.new zeroDigest 1 "p" [] 1 0) = true :=
  mine_postcondition zeroDigest 0 (Block.new zeroDigest 1 "p" [] 1 0)
    (Block.new zeroDigest 1 "p" [] 1 0) rfl rfl

/-!
Claim C2.
-/

/-- Claim C2: every Blockchain reachable from new() by any sequence of
add_transaction and mine_pending_transactions calls satisfies the chain
invariant: chain[0] is the genesis block (index 0, previous_hash "0"), and
every block after the first increments the index by one, links to its
predecessor by hash, and is self-valid per Block::is_valid. -/
theorem reachable_chain_invariant (digest : String → String) (bc : Blockchain)
    (h : Reachable digest bc) : chainInvariant digest bc :=
  chainInvariant_reachable digest bc h

/-- Witness for C2: the invariant at the freshly constructed chain. -/
theorem reachable_chain_invariant_witness :
    chainInvariant idDigest (Blockchain.new idDigest 2 50 0) :=
  reachable_chain_invariant idDigest (Blockchain.new idDigest 2 50 0)
    (Reachable.new 2 50 0)

/-!
Claim C3.
-/

/-- Claim C3: a successful mine_pending_transactions call returns and
appends exactly one block whose transaction list is the prior pending pool
in order followed by exactly one reward transaction (token-transfer kind,
sender "System", recipient the miner address, payload the decimal mining
reward); afterwards the pool is empty and the chain is one block longer. -/
theorem mine_pending_success_spec (digest : String → String) (fuel now : Nat)
    (bc : Blockchain) (miner : String) (blk : Block) (bc' : Blockchain)
    (h : Blockchain.mine_pending_transactions digest fuel now bc miner =
      some (Except.ok blk, bc')) :
    ∃ reward_tx : Transaction,
      blk.transactions = bc.pending_transactions ++ [reward_tx] ∧
      reward_tx.transaction_type = TransactionType.TokenTransfer ∧
      reward_tx.sender = "System" ∧
      reward_tx.recipient = some miner ∧
      reward_tx.data = "Reward: " ++ natRepr bc.mining_reward ∧
      bc'.chain = bc.chain ++ [blk] ∧
      bc'.pending_transactions = [] ∧
      bc'.chain.length = bc.chain.length + 1 := by
  obtain ⟨hne, latest, hlat, hm, hval, hst⟩ :=
    mine_pending_ok digest fuel now bc miner blk bc' h
  have hframe := mine_frame digest fuel _ _ hm
  refine ⟨(Transaction.new digest TransactionType.TokenTransfer "System"
      ("Reward: " ++ natRepr bc.mining_reward) now).with_recipient miner,
    ?_, rfl, rfl, rfl, rfl, ?_, ?_, ?_⟩
  · have htx := hframe.2.2.1
    simpa using htx
  · rw [hst]
  · rw [hst]
  · rw [hst]
    simp

/-- A signed transaction used by witnesses. -/
def wSignedTx : Transaction :=
  { id := "tx1", transaction_type := TransactionType.DataSubmission, sender := "alice"
    recipient := none, timestamp := 0, data := "sample", signature := some "sig"
    gas_fee := none, status := TransactionStatus.Pending }

/-- A concrete blockchain with one signed pending transaction, difficulty 1,
reward 10, genesis built under zeroDigest. -/
def wPoolBc : Blockchain :=
  { chain := [Block.new zeroDigest 0 "0" [] 1 0]
    pending_transactions := [wSignedTx]
    difficulty := 1
    mining_reward := 10 }

/-- The block that mining wPoolBc under zeroDigest produces. -/
def wMinedBlock : Block :=
  Block.new zeroDigest 1 (Block.new zeroDigest 0 "0" [] 1 0).hash
    (wPoolBc.pending_transactions ++
      [(Transaction.new zeroDigest TransactionType.TokenTransfer "System"
          ("Reward: " ++ natRepr 10) 0).with_recipient "bob"]) 1 0

/-- The post-state of that mining call. -/
def wMinedState : Blockchain :=
  { wPoolBc with chain := wPoolBc.chain ++ [wMinedBlock], pending_transactions := [] }

/-- Witness for C3: the success postcondition holds for the concrete mining
run on wPoolBc. -/
theorem mine_pending_success_spec_witness :
    ∃ reward_tx : Transaction,
      wMinedBlock.transactions = wPoolBc.pending_transactions ++ [reward_tx] ∧
      reward_tx.transaction_type = TransactionType.TokenTransfer ∧
      reward_tx.sender = "System" ∧
      reward_tx.recipient = some "bob" ∧
      reward_tx.data = "Reward: " ++ natRepr wPoolBc.mining_reward ∧
      wMinedState.chain = wPoolBc.chain ++ [wMinedBlock] ∧
      wMinedState.pending_transactions = [] ∧
      wMinedState.chain.length = wPoolBc.chain.length + 1 :=
  mine_pending_success_spec zeroDigest 1 0 wPoolBc "bob" wMinedBlock wMinedState (by rfl)

/-!
Claim C5.
-/

/-- Claim C5: add_transaction fails with InvalidTransaction and leaves the
pool unchanged exactly when the signature is absent; with any signature
present (no validity check) the transaction is appended to the end of the
pool and the call succeeds. -/
theorem add_transaction_spec (bc : Blockchain) (tx : Transaction) :
    (Blockchain.add_transaction bc tx =
        (Except.error BlockchainError.InvalidTransaction, bc) ↔ tx.signature = none) ∧
    ∀ s, tx.signature = some s →
      Blockchain.add_transaction bc tx =
        (Except.ok (),
          { bc with pending_transactions := bc.pending_transactions ++ [tx] }) := by
  cases hs : tx.signature with
  | none =>
    refine ⟨?_, ?_⟩
    · simp [Blockchain.add_transaction, hs]
    · intro s hcontr
      simp at hcontr
  | some s =>
    refine ⟨?_, ?_⟩
    · constructor
      · intro h
        simp [Blockchain.add_transaction, hs] at h
      · intro h
        simp at h
    · intro s' _
      simp [Blockchain.add_transaction, hs]

/-- Witness for C5: appending a concrete signed transaction to the fresh
chain. -/
theorem add_transaction_spec_witness :
    Blockchain.add_transaction (Blockchain.new idDigest 2 50 0) wSignedTx =
      (Except.ok (),
        { Blockchain.new idDigest 2 50 0 with
            pending_transactions :=
              (Blockchain.new idDigest 2 50 0).pending_transactions ++ [wSignedTx] }) :=
  (add_transaction_spec (Blockchain.new idDigest 2 50 0) wSignedTx).2 "sig" rfl

/-!
Claim C6.
-/

/-- Claim C6: mine_pending_transactions on an empty pool returns the
EmptyPool error and returns the state unchanged (chain and pool intact),
for any fuel, clock, and miner address. -/
theorem mine_pending_empty_pool_spec (digest : String → String) (fuel now : Nat)
    (bc : Blockchain) (miner : String) (h : bc.pending_transactions = []) :
    Blockchain.mine_pending_transactions digest fuel now bc miner =
      some (Except.error BlockchainError.EmptyPool, bc) :=
  mine_pending_empty_pool digest fuel now bc miner h

/-- Witness for C6 on the fresh chain, whose pool is empty. -/
theorem mine_pending_empty_pool_spec_witness :
    Blockchain.mine_pending_transactions idDigest 5 3 (Blockchain.new idDigest 2 50 0)
        "miner" =
      some (Except.error BlockchainError.EmptyPool, Blockchain.new idDigest 2 50 0) :=
  mine_pending_empty_pool_spec idDigest 5 3 (Blockchain.new idDigest 2 50 0) "miner" rfl

/-!
Claim C7.
-/

/-- Claim C7: for every difficulty, reward (and clock reading), a freshly
constructed Blockchain has chain length 1, chain[0] with index 0,
previous_hash "0" and no transactions, and is_chain_valid returns true. -/
theorem blockchain_new_spec (digest : String → String) (difficulty mining_reward now : Nat) :
    ∃ h1 : (Blockchain.new digest difficulty mining_reward now).chain.length = 1,
      ((Blockchain.new digest difficulty mining_reward now).chain.get ⟨0, by omega⟩).index
          = 0 ∧
      ((Blockchain.new digest difficulty mining_reward now).chain.get
          ⟨0, by omega⟩).previous_hash = "0" ∧
      ((Blockchain.new digest difficulty mining_reward now).chain.get
          ⟨0, by omega⟩).transactions = [] ∧
      Blockchain.is_chain_valid digest (Blockchain.new digest difficulty mining_reward now)
          = true :=
  ⟨rfl, rfl, rfl, rfl, rfl⟩

/-!
Claim C9.
-/

/-- Claim C9: whenever the chain is nonempty (the genesis invariant), no
terminating mine_pending_transactions run can return the ChainEmpty error;
yet ChainEmpty is a named, explicitly returned error value, reached exactly
on the defensive (invariant-violating) states with an empty chain and a
nonempty pool, rather than a panic or unchecked assumption. -/
theorem chain_empty_spec (digest : String → String) :
    (∀ fuel now bc miner res bc', bc.chain ≠ [] →
      Blockchain.mine_pending_transactions digest fuel now bc miner = some (res, bc') →
      res ≠ Except.error BlockchainError.ChainEmpty) ∧
    (∀ fuel now bc miner, bc.chain = [] → bc.pending_transactions ≠ [] →
      Blockchain.mine_pending_transactions digest fuel now bc miner =
        some (Except.error BlockchainError.ChainEmpty, bc)) :=
  ⟨fun fuel now bc miner res bc' hne h =>
      mine_pending_no_chain_empty digest fuel now bc miner res bc' hne h,
    fun fuel now bc miner hc hp =>
      mine_pending_chain_empty digest fuel now bc miner hc hp⟩

/-- A state with an empty chain and one pending transaction (constructible
because all Blockchain fields are public). -/
def wEmptyChainBc : Blockchain :=
  { chain := [], pending_transactions := [wSignedTx], difficulty := 0, mining_reward := 0 }

/-- Witness for C9: the ChainEmpty branch evaluated on wEmptyChainBc. -/
theorem chain_empty_spec_witness :
    Blockchain.mine_pending_transactions idDigest 0 0 wEmptyChainBc "miner" =
      some (Except.error BlockchainError.ChainEmpty, wEmptyChainBc) :=
  (chain_empty_spec idDigest).2 0 0 wEmptyChainBc "miner" rfl (by decide)

/-!
Claim C10.
-/

/-- Claim C10: mine() modifies only the nonce and hash fields — index,
timestamp, transactions, previous_hash and difficulty are unchanged — and
the nonce never decreases. -/
theorem mine_frame_spec (digest : String → String) (fuel : Nat) (b b' : Block)
    (h : Block.mine digest fuel b = some b') :
    b'.index = b.index ∧ b'.timestamp = b.timestamp ∧
      b'.transactions = b.transactions ∧ b'.previous_hash = b.previous_hash ∧
      b'.difficulty = b.difficulty ∧ b.nonce ≤ b'.nonce :=
  mine_frame digest fuel b b' h

/-- Witness for C10 at a concrete mining run (difficulty 0, immediate
exit). -/
theorem mine_frame_spec_witness :
    (Block.new idDigest 0 "q" [] 0 2).index = (Block.new idDigest 0 "q" [] 0 2).index ∧
      (Block.new idDigest 0 "q" [] 0 2).timestamp = (Block.new idDigest 0 "q" [] 0 2).timestamp ∧
      (Block.new idDigest 0 "q" [] 0 2).transactions =
        (Block.new idDigest 0 "q" [] 0 2).transactions ∧
      (Block.new idDigest 0 "q" [] 0 2).previous_hash =
        (Block.new idDigest 0 "q" [] 0 2).previous_hash ∧
      (Block.new idDigest 0 "q" [] 0 2).difficulty =
        (Block.new idDigest 0 "q" [] 0 2).difficulty ∧
      (Block.new idDigest 0 "q" [] 0 2).nonce ≤ (Block.new idDigest 0 "q" [] 0 2).nonce :=
  mine_frame_spec idDigest 3 (Block.new idDigest 0 "q" [] 0 2)
    (Block.new idDigest 0 "q" [] 0 2) rfl

/-!
Claim C8.
-/

/-- Claim C8: decoding the encoding of any Transaction, Block, or
Blockchain value succeeds and reproduces every field exactly, including
optional fields that were absent (recipient, gas_fee, signature decode back
to absent). -/
theorem json_roundtrip_spec :
    (∀ tx : Transaction, Transaction.from_json (Transaction.to_json tx) = some tx) ∧
      (∀ b : Block, Block.from_json (Block.to_json b) = some b) ∧
      (∀ bc : Blockchain, Blockchain.from_json (Blockchain.to_json bc) = some bc) :=
  ⟨transaction_roundtrip, block_roundtrip, blockchain_roundtrip⟩

/-!
Claim C4: helper lemmas.
-/

theorem is_valid_eq_false_of_hash_ne (digest : String → String) (b : Block)
    (h : Block.calculate_hash digest b ≠ b.hash) : Block.is_valid digest b = false := by
  unfold Block.is_valid
  have hb : (Block.calculate_hash digest b == b.hash) = false := beq_eq_false_iff_ne.mpr h
  rw [hb, Bool.false_and]

theorem is_valid_new_block_eq_false_of_invalid (digest : String → String) (nb pb : Block)
    (h : Block.is_valid digest nb = false) :
    Blockchain.is_valid_new_block digest nb pb = false := by
  cases hb : Blockchain.is_valid_new_block digest nb pb with
  | false => rfl
  | true =>
    have := ((is_valid_new_block_iff digest nb pb).mp hb).2.2
    rw [this] at h
    exact absurd h (by decide)

/-- One failing adjacent pair, located through getElem?, makes the chain
check false. -/
theorem is_chain_valid_eq_false_at (digest : String → String) (bc : Blockchain)
    (i : Nat) (cur prev : Block)
    (hcur : bc.chain[i + 1]? = some cur) (hprev : bc.chain[i]? = some prev)
    (hbad : Blockchain.is_valid_new_block digest cur prev = false) :
    Blockchain.is_chain_valid digest bc = false := by
  have hlen : i + 1 < bc.chain.length := (List.getElem?_eq_some.mp hcur).1
  unfold Blockchain.is_chain_valid
  have hne : ¬ bc.chain.isEmpty = true := by
    simp only [List.isEmpty_iff]
    intro hc
    rw [hc] at hlen
    simp at hlen
  simp only [hne, Bool.false_eq_true, if_false]
  rw [List.all_eq_false]
  refine ⟨i, List.mem_range.mpr (by omega), ?_⟩
  simp only [hcur, hprev]
  simp [hbad]

/-- Digest used in the C4 counterexample. -/
def tDigest : String → String := fun s => "t" ++ s

/-- The original chain of the C4 counterexample: a fresh blockchain at
difficulty 0 under tDigest. -/
def tamperChain : Blockchain := Blockchain.new tDigest 0 0 0

/-- A transaction whose id is the empty string (all Transaction fields are
public in the source, so this value is constructible). -/
def emptyIdTx : Transaction :=
  { id := "", transaction_type := TransactionType.Custom "note", sender := "mallory"
    recipient := none, timestamp := 5, data := "injected payload", signature := none
    gas_fee := none, status := TransactionStatus.Pending }

/-- The committed genesis block of tamperChain with its transactions field
mutated (hash not recomputed): the id concatenation is unchanged, so the
hash inputs coincide. -/
def tamperedBlock : Block :=
  { Block.new tDigest 0 "0" [] 0 0 with transactions := [emptyIdTx] }

/-- Claim C4 counterexample: tamperChain satisfies the invariants and its
only committed block is the genesis; mutating that block's transactions
field (without recomputing the hash) yields tamperedBlock, a genuinely
different transaction list — yet is_valid of the mutated block stays true
and is_chain_valid of the mutated chain stays true, because the block hash
only covers transaction ids (unchanged here) and a genesis-only chain has
no adjacent pair to check.  So the claim fails as stated. -/
theorem tamper_detection_cex :
    tamperChain.chain = [Block.new tDigest 0 "0" [] 0 0] ∧
      chainInvariant tDigest tamperChain ∧
      tamperedBlock.transactions ≠ (Block.new tDigest 0 "0" [] 0 0).transactions ∧
      Block.is_valid tDigest tamperedBlock = true ∧
      Blockchain.is_chain_valid tDigest
        { tamperChain with chain := tamperChain.chain.set 0 tamperedBlock } = true := by
  refine ⟨rfl, ⟨⟨Block.new tDigest 0 "0" [] 0 0, [], rfl, rfl, rfl⟩, ?_⟩, by decide,
    by decide, by decide⟩
  intro i cur prev hcur _
  have : i + 1 < 1 := (List.getElem?_eq_some.mp hcur).1
  omega

/-- Claim C4 (amended): in a chain satisfying the invariants, take a
committed non-genesis block chain[i] (1 <= i < length) and replace it,
without recomputing its hash, by a block differing in a single field,
where the mutation changes the hash field itself, or changes index,
timestamp, previous_hash or nonce, or changes transactions in a way that
alters the concatenation of transaction ids; for the non-hash mutations
assume the digest does not collide on the two (necessarily distinct) hash
inputs.  Then is_valid of the mutated block is false and is_chain_valid of
the mutated chain is false.  (The restrictions are forced by the
counterexample: the genesis of a one-block chain can be mutated without
failing is_chain_valid, and a transactions mutation that preserves the id
concatenation is undetected.) -/
theorem tamper_detection (digest : String → String) (bc : Blockchain)
    (hinv : chainInvariant digest bc) (i : Nat) (hi : i < bc.chain.length) (h1 : 1 ≤ i)
    (b' : Block)
    (hmut :
      (∃ x, x ≠ (bc.chain.get ⟨i, hi⟩).hash ∧ b' = { bc.chain.get ⟨i, hi⟩ with hash := x }) ∨
      (∃ x, x ≠ (bc.chain.get ⟨i, hi⟩).index ∧ b' = { bc.chain.get ⟨i, hi⟩ with index := x }) ∨
      (∃ x, x ≠ (bc.chain.get ⟨i, hi⟩).timestamp ∧ b' = { bc.chain.get ⟨i, hi⟩ with timestamp := x }) ∨
      (∃ x, x ≠ (bc.chain.get ⟨i, hi⟩).previous_hash ∧
        b' = { bc.chain.get ⟨i, hi⟩ with previous_hash := x }) ∨
      (∃ x, x ≠ (bc.chain.get ⟨i, hi⟩).nonce ∧ b' = { bc.chain.get ⟨i, hi⟩ with nonce := x }) ∨
      (∃ ts, txData ts ≠ txData (bc.chain.get ⟨i, hi⟩).transactions ∧
        b' = { bc.chain.get ⟨i, hi⟩ with transactions := ts }))
    (hnc : digest (hashInput b') = digest (hashInput (bc.chain.get ⟨i, hi⟩)) →
      hashInput b' = hashInput (bc.chain.get ⟨i, hi⟩)) :
    Block.is_valid digest b' = false ∧
      Blockchain.is_chain_valid digest { bc with chain := bc.chain.set i b' } = false := by
  have hii : i - 1 + 1 = i := by omega
  have hprevlt : i - 1 < bc.chain.length := by omega
  have hv : Block.is_valid digest (bc.chain.get ⟨i, hi⟩) = true := by
    have hcur : bc.chain[i - 1 + 1]? = some (bc.chain.get ⟨i, hi⟩) := by
      rw [hii]
      exact List.getElem?_eq_getElem hi
    have hprev : bc.chain[i - 1]? = some (bc.chain.get ⟨i - 1, hprevlt⟩) :=
      List.getElem?_eq_getElem hprevlt
    exact (hinv.2 (i - 1) _ _ hcur hprev).2.2
  have hcalc : Block.calculate_hash digest (bc.chain.get ⟨i, hi⟩) = (bc.chain.get ⟨i, hi⟩).hash :=
    ((is_valid_iff digest _).mp hv).1
  have hvalid_false : Block.is_valid digest b' = false := by
    apply is_valid_eq_false_of_hash_ne
    rcases hmut with ⟨x, hx, heq⟩ | ⟨x, hx, heq⟩ | ⟨x, hx, heq⟩ | ⟨x, hx, heq⟩ |
      ⟨x, hx, heq⟩ | ⟨ts, hts, heq⟩
    · subst heq
      rw [calculate_hash_set_hash, hcalc]
      exact fun hc => hx hc.symm
    · subst heq
      intro hc
      exact (hashInput_set_index_ne _ x hx) (hnc (hc.trans hcalc.symm))
    · subst heq
      intro hc
      exact (hashInput_set_timestamp_ne _ x hx) (hnc (hc.trans hcalc.symm))
    · subst heq
      intro hc
      exact (hashInput_set_previous_hash_ne _ x hx) (hnc (hc.trans hcalc.symm))
    · subst heq
      intro hc
      exact (hashInput_set_nonce_ne _ x hx) (hnc (hc.trans hcalc.symm))
    · subst heq
      intro hc
      exact (hashInput_set_transactions_ne _ ts hts) (hnc (hc.trans hcalc.symm))
  refine ⟨hvalid_false, ?_⟩
  apply is_chain_valid_eq_false_at digest _ (i - 1) b' (bc.chain.get ⟨i - 1, hprevlt⟩)
  · show (bc.chain.set i b')[i - 1 + 1]? = some b'
    rw [hii, List.getElem?_set_self']
    simp [List.getElem?_eq_getElem hi]
  · show (bc.chain.set i b')[i - 1]? = some (bc.chain.get ⟨i - 1, hprevlt⟩)
    rw [List.getElem?_set_ne (by omega : i ≠ i - 1)]
    exact List.getElem?_eq_getElem hprevlt
  · exact is_valid_new_block_eq_false_of_invalid digest _ _ hvalid_false

/-- Genesis block for the C4 witness chain (difficulty 0, idDigest). -/
def wGenesis : Block := Block.new idDigest 0 "0" [] 0 0

/-- A valid successor block for the C4 witness chain. -/
def wBlockOne : Block := Block.new idDigest 1 wGenesis.hash [] 0 7

/-- A two-block chain satisfying the invariants, for the C4 witness. -/
def wTwoChain : Blockchain :=
  { chain := [wGenesis, wBlockOne], pending_transactions := []
    difficulty := 0, mining_reward := 0 }

theorem wTwoChain_invariant : chainInvariant idDigest wTwoChain := by
  constructor
  · exact ⟨wGenesis, [wBlockOne], rfl, rfl, rfl⟩
  · intro i cur prev hcur hprev
    have hlen : i + 1 < 2 := (List.getElem?_eq_some.mp hcur).1
    have hi0 : i = 0 := by omega
    subst hi0
    have hc : cur = wBlockOne := by
      have : wTwoChain.chain[0 + 1]? = some wBlockOne := rfl
      rw [this] at hcur
      exact (Option.some.injEq _ _ ▸ hcur.symm)
    have hp : prev = wGenesis := by
      have : wTwoChain.chain[0]? = some wGenesis := rfl
      rw [this] at hprev
      exact (Option.some.injEq _ _ ▸ hprev.symm)
    subst hc hp
    exact ⟨by decide, by decide, by decide⟩

/-- Witness for C4: mutating the nonce of the committed second block of
wTwoChain makes the block invalid and the chain invalid. -/
theorem tamper_detection_witness :
    Block.is_valid idDigest { wBlockOne with nonce := 5 } = false ∧
      Blockchain.is_chain_valid idDigest
        { wTwoChain with
            chain := wTwoChain.chain.set 1 { wBlockOne with nonce := 5 } } = false :=
  tamper_detection idDigest wTwoChain wTwoChain_invariant 1 (by decide) (by decide)
    { wBlockOne with nonce := 5 }
    (Or.inr (Or.inr (Or.inr (Or.inr (Or.inl ⟨5, by decide, rfl⟩)))))
    (fun h => h)
